import Mathlib

/-!
Verification development for the rsvim core: the Unicode width model
(`Buffer::char_width` / `Buffer::char_symbol` in `src/rsvim_core/src/buf.rs`),
the per-line display-width index (`BufWindex` in
`src/rsvim_core/src/buf/idx/widx.rs`), and the viewport layout engine
(`src/rsvim_core/src/ui/widget/window/viewport.rs`).

Machine integers (`usize`, `u16`) are modelled as `Nat`.  Fallible points of
the source (an `unwrap()` or an `assert!` that can fire) are modelled with
`Option`, `none` standing for the panic.  `BTreeMap` is modelled as an
association list.
-/

namespace Rsvim

/-- Modelled from the spec: `BufferLocalOptions` (`crate::buf::opt`, whose
source file is not part of this snapshot) holds the per-buffer options: the
tab stop (a positive integer, commonly 8) and the file encoding (currently
UTF-8 only). -/
structure BufferLocalOptions where
  tab_stop : Nat
  deriving DecidableEq, Repr

/-- Modelled from the spec: the default buffer options use a tab stop of 8. -/
def BufferLocalOptions.default : BufferLocalOptions := ⟨8⟩

/-- Rust `char::is_ascii_control`: ASCII control characters are
U+0000..U+001F and U+007F. -/
def is_ascii_control (c : Char) : Bool :=
  c.toNat ≤ 0x1F || c.toNat == 0x7F

/-- Modelled from the spec: `AsciiControlCodeFormatter`
(`crate::defaults::grapheme`, not part of this snapshot) renders an ASCII
control character as its two-character caret-notation escape glyph
(`^@`, `^A`, ..., `^_`, and `^?` for DEL), as also shown in Example-5 of the
`Viewport` documentation. -/
def ascii_control_glyph (c : Char) : List Char :=
  if c.toNat = 0x7F then ['^', '?'] else ['^', Char.ofNat (c.toNat + 0x40)]

/-- Model of the external `unicode-width` crate's
`UnicodeWidthChar::width_cjk` (East-Asian width, CJK variant).  It is exact
where the claims need it: `none` exactly on the control characters
U+0000..U+001F and U+007F..U+009F, width 0 on zero-width combining marks and
format characters, width 2 on the East-Asian wide/fullwidth blocks listed
below; all remaining code points are approximated as width 1. -/
def width_cjk (c : Char) : Option Nat :=
  let n := c.toNat
  if n ≤ 0x1F ∨ (0x7F ≤ n ∧ n ≤ 0x9F) then none
  else if (0x300 ≤ n ∧ n ≤ 0x36F) ∨ (0x200B ≤ n ∧ n ≤ 0x200F) then some 0
  else if (0x1100 ≤ n ∧ n ≤ 0x115F) ∨ (0x3000 ≤ n ∧ n ≤ 0x303E) ∨
          (0x3041 ≤ n ∧ n ≤ 0x33FF) ∨ (0x3400 ≤ n ∧ n ≤ 0x4DBF) ∨
          (0x4E00 ≤ n ∧ n ≤ 0x9FFF) ∨ (0xA000 ≤ n ∧ n ≤ 0xA4CF) ∨
          (0xAC00 ≤ n ∧ n ≤ 0xD7A3) ∨ (0xF900 ≤ n ∧ n ≤ 0xFAFF) ∨
          (0xFE30 ≤ n ∧ n ≤ 0xFE4F) ∨ (0xFF00 ≤ n ∧ n ≤ 0xFF60) ∨
          (0xFFE0 ≤ n ∧ n ≤ 0xFFE6) ∨ (0x20000 ≤ n ∧ n ≤ 0x3FFFD) then some 2
  else some 1

/-- `Buffer::char_width` (buf.rs lines 164-178): tab maps to the tab stop,
line feed and carriage return to 0, any other ASCII control character to the
printed length of its caret-notation glyph, and everything else to
`UnicodeWidthChar::width_cjk(c).unwrap()`.  The `unwrap()` panics where
`width_cjk` is `None`; that panic is modelled as `none`. -/
def char_width (o : BufferLocalOptions) (c : Char) : Option Nat :=
  if is_ascii_control c then
    if c = '\t' then some o.tab_stop
    else if c = '\n' ∨ c = '\r' then some 0
    else some (ascii_control_glyph c).length
  else width_cjk c

/-- Total width function used by the layout and index embeddings, which call
`char_width` on the panic-free fragment of its domain; the default value 1
is never observed by any theorem below whose inputs avoid the panic region
U+0080..U+009F. -/
def char_width_val (o : BufferLocalOptions) (c : Char) : Nat :=
  (char_width o c).getD 1

/-- `Buffer::char_symbol` (buf.rs lines 181-199): first computes the width
(propagating its panic), then returns the printable cell symbol paired with
that width: spaces for a tab, the empty symbol for LF/CR, the caret glyph
for other ASCII controls, and the character itself otherwise. -/
def char_symbol (o : BufferLocalOptions) (c : Char) : Option (List Char × Nat) :=
  match char_width o c with
  | none => none
  | some width =>
    if is_ascii_control c then
      if c = '\t' then some (List.replicate o.tab_stop ' ', width)
      else if c = '\n' ∨ c = '\r' then some ([], width)
      else some (ascii_control_glyph c, width)
    else some ([c], width)

/-! ## The per-line display width index (`BufWindex`, widx.rs) -/

/-- Lookup in an association list, modelling `BTreeMap::get` /
`BTreeMap::contains_key` for `usize` keys. -/
def alookup (k : Nat) : List (Nat × Nat) → Option Nat
  | [] => none
  | (k', v) :: rest => if k = k' then some v else alookup k rest

/-- Insert-or-replace in an association list, modelling `BTreeMap::insert`
for `usize` keys.  On states reachable by the index the keys are recorded in
increasing order, so appending a fresh key coincides with the sorted-map
behaviour. -/
def btreeInsert (m : List (Nat × Nat)) (k v : Nat) : List (Nat × Nat) :=
  match m with
  | [] => [(k, v)]
  | (k', v') :: rest =>
    if k = k' then (k, v) :: rest else (k', v') :: btreeInsert rest k v

/-- `BufWindex` (widx.rs lines 36-49): `char2width` maps a char index to the
prefix display width through that char, `width2char` is the reverse mapping
to the right-most such char index. -/
structure BufWindex where
  char2width : List Nat
  width2char : List (Nat × Nat)
  deriving DecidableEq, Repr

/-- `BufWindex::new`. -/
def BufWindex.new : BufWindex := ⟨[], []⟩

/-- The `width2char` update of the cache-extension loop (widx.rs lines
118-127): point width `w` at char index `cidx` when `w` is a new key or its
current char index is smaller. -/
def w2cUpdate (m : List (Nat × Nat)) (w cidx : Nat) : List (Nat × Nat) :=
  match alookup w m with
  | some c0 => if c0 < cidx then btreeInsert m w cidx else m
  | none => btreeInsert m w cidx

/-- One iteration of the cache-extension loop inside `BufWindex::width_until`
(widx.rs lines 111-128): the next prefix width is the last cached prefix
width (0 when the cache is empty) plus the char's display width; it is pushed
onto `char2width`, and `width2char` is pointed at the new index when that
width is new or previously pointed at a smaller index. -/
def windexPush (o : BufferLocalOptions) (st : BufWindex) (c : Char) : BufWindex :=
  let prefix_width :=
    st.char2width.getD (st.char2width.length - 1) 0 + char_width_val o c
  let char2width := st.char2width ++ [prefix_width]
  let cidx := char2width.length - 1
  ⟨char2width, w2cUpdate st.width2char prefix_width cidx⟩

/-- `BufWindex::width_until` (widx.rs lines 94-141).  When `char_idx` is past
the cached prefix but inside the line, the cache is extended forward
character by character from its current end up to `char_idx`; the result is
the cached prefix width, or `none` when the char does not exist.  The
debug-only `_internal_check` is the identity in release builds and is not
modelled. -/
def width_until (o : BufferLocalOptions) (rope_line : List Char)
    (st : BufWindex) (char_idx : Nat) : BufWindex × Option Nat :=
  let st' :=
    if st.char2width.length ≤ char_idx then
      if char_idx < rope_line.length then
        List.foldl (windexPush o) st
          ((rope_line.drop st.char2width.length).take
            (char_idx + 1 - st.char2width.length))
      else st
    else st
  (st', if char_idx < st'.char2width.length
        then some (st'.char2width.getD char_idx 0) else none)

/-- `BufWindex::width_between` (widx.rs lines 149-167): the difference of two
`width_until` calls on the inclusive range ends; `none` when either end is
unresolvable.  The `assert!(start_width <= last_width)` is modelled by the
`else none` branch, which stands for the panic and is unreachable on states
reachable by the index itself. -/
def width_between (o : BufferLocalOptions) (rope_line : List Char)
    (st : BufWindex) (c_start c_last : Nat) : BufWindex × Option Nat :=
  let r1 := width_until o rope_line st c_start
  let r2 := width_until o rope_line r1.1 c_last
  (r2.1,
    match r1.2, r2.2 with
    | some start_width, some last_width =>
      if start_width ≤ last_width then some (last_width - start_width) else none
    | _, _ => none)

/-- The state of the index after caching exactly the first `n` characters of
a line, starting from `BufWindex::new`: the canonical reachable states. -/
def buildWindex (o : BufferLocalOptions) (line : List Char) (n : Nat) : BufWindex :=
  List.foldl (windexPush o) BufWindex.new (line.take n)

/-- Prefix display widths of a line, continuing from accumulated width
`acc`: entry `i` is `acc` plus the total width of characters `0..=i`. -/
def prefixWidthsAux (o : BufferLocalOptions) (acc : Nat) : List Char → List Nat
  | [] => []
  | c :: cs =>
    (acc + char_width_val o c) :: prefixWidthsAux o (acc + char_width_val o c) cs

/-- Prefix display widths of a line: entry `i` is the display width of the
char range `[0, i]`, the value `width_until` reports for char `i`. -/
def prefixWidths (o : BufferLocalOptions) (line : List Char) : List Nat :=
  prefixWidthsAux o 0 line

/-! ## The viewport layout engine (viewport.rs) -/

/-- The window's actual shape.  The source's `U16Rect` is a rectangle whose
`height()`/`width()` the engine reads; only those two values matter here. -/
structure U16Rect where
  width : Nat
  height : Nat
  deriving DecidableEq, Repr

/-- `ViewportOptions` (viewport.rs lines 84-88). -/
structure ViewportOptions where
  wrap : Bool
  line_break : Bool
  deriving DecidableEq, Repr

/-- The buffer as the viewport engine sees it: the per-buffer options and the
rope's lines (`ropey` yields each line including its trailing line feed, plus
a final empty line after a trailing line feed). -/
structure Buffer where
  options : BufferLocalOptions
  lines : List (List Char)
  deriving DecidableEq, Repr

/-- `Rope::get_lines_at` via `Buffer::get_lines_at` (buf.rs lines 227-229):
the iterator over lines starting from `line_idx`, `None` exactly when
`line_idx` is strictly beyond `len_lines`. -/
def Buffer.get_lines_at (b : Buffer) (line_idx : Nat) : Option (List (List Char)) :=
  if line_idx ≤ b.lines.length then some (b.lines.drop line_idx) else none

/-- `LineViewportRow` (viewport.rs lines 19-42): the half-open display-column
range and char-index range of one screen row of a buffer line. -/
structure LineViewportRow where
  start_bcolumn : Nat
  start_char_idx : Nat
  end_bcolumn : Nat
  end_char_idx : Nat
  deriving DecidableEq, Repr

/-- `LineViewport` (viewport.rs lines 44-82): the rows of one buffer line
(keyed by window row index) and the filled padding cells at its edges. -/
structure LineViewport where
  rows : List (Nat × LineViewportRow)
  start_filled_columns : Nat
  end_filled_columns : Nat
  deriving DecidableEq, Repr

/-- The row record the wrap-linebreak collector builds (viewport.rs lines
1045-1049 construct `LineViewportRow` with these fields, an older shape of
the struct than the one declared at the top of the same file). -/
structure LineViewportRowLB where
  row_idx : Nat
  chars_length : Nat
  chars_width : Nat
  deriving DecidableEq, Repr

/-- The line record of the wrap-linebreak collector (viewport.rs line 1111
builds `LineViewport` with only `rows`). -/
structure LineViewportLB where
  rows : List LineViewportRowLB
  deriving DecidableEq, Repr

/-- The `lines` maps the three collectors return.  The source file's
wrap-linebreak collector populates the map with the older row shape while
the other two use the declared struct, so the embedding tags which shape a
collector produced. -/
inductive LinesMap where
  | std : List (Nat × LineViewport) → LinesMap
  | lb : List (Nat × LineViewportLB) → LinesMap
  deriving DecidableEq, Repr

/-- Whether a collected lines map has no line entries. -/
def LinesMap.isEmpty : LinesMap → Bool
  | .std l => l.isEmpty
  | .lb l => l.isEmpty

/-- `ViewportRect` (viewport.rs lines 347-360): the declared struct carries
only the line range (the display-column fields are commented out there). -/
structure ViewportRect where
  start_line : Nat
  end_line : Nat
  deriving DecidableEq, Repr

/-- `ViewportRect::default()`. -/
def ViewportRect.default : ViewportRect := ⟨0, 0⟩

/-- Scan state of the per-line char loop of
`_collect_from_top_left_with_nowrap` (viewport.rs lines 460-473). -/
structure NowrapState where
  wcol : Nat
  bcol : Nat
  start_bcol : Nat
  end_bcol : Nat
  start_c_idx : Nat
  end_c_idx : Nat
  start_c_idx_init : Bool
  start_fills : Nat
  end_fills : Nat
  deriving DecidableEq, Repr

/-- Initial per-line scan state (all zero, not yet initialized). -/
def nowrapInit : NowrapState := ⟨0, 0, 0, 0, 0, 0, false, 0, 0⟩

/-- The char loop of `_collect_from_top_left_with_nowrap` (viewport.rs lines
476-559): skip chars whose width lies entirely before `start_bcolumn`, record
the first shown char, stop (recording `end_fills`) when a char no longer
fits, consume otherwise, and stop when the row is exactly full.  The
subtraction in `start_fills` is `usize` subtraction in the source, which
panics when `bcol < start_bcolumn` there; `Nat` subtraction truncates
instead, a difference no theorem below depends on. -/
def nowrapScan (o : BufferLocalOptions) (width start_bcolumn : Nat) :
    NowrapState → Nat → List Char → NowrapState
  | s, _, [] => s
  | s, i, c :: cs =>
    let c_width := char_width_val o c
    if s.bcol + c_width < start_bcolumn then
      nowrapScan o width start_bcolumn
        { s with bcol := s.bcol + c_width, end_bcol := s.bcol + c_width,
                 end_c_idx := i } (i + 1) cs
    else
      let s1 := if s.start_c_idx_init then s else
        { s with start_c_idx_init := true, start_bcol := s.bcol,
                 start_c_idx := i, start_fills := s.bcol - start_bcolumn }
      if width < s1.wcol + c_width then
        { s1 with end_fills := s1.wcol + c_width - width }
      else
        let s2 := { s1 with bcol := s1.bcol + c_width,
                            end_bcol := s1.bcol + c_width, end_c_idx := i,
                            wcol := s1.wcol + c_width }
        if width ≤ s2.wcol then s2
        else nowrapScan o width start_bcolumn s2 (i + 1) cs

/-- The line loop of `_collect_from_top_left_with_nowrap` (viewport.rs lines
447-594): each line gets exactly one row; lines past the window height are
not visited.  Returns the final `current_line` (the `end_line` bound) and
the collected per-line viewports. -/
def nowrapLines (o : BufferLocalOptions) (width height start_bcolumn : Nat) :
    Nat → Nat → List (List Char) → Nat × List (Nat × LineViewport)
  | current_line, _, [] => (current_line, [])
  | current_line, wrow, line :: rest =>
    if height ≤ wrow then (current_line, [])
    else
      let s := nowrapScan o width start_bcolumn nowrapInit 0 line
      let lv : LineViewport :=
        ⟨[(wrow, ⟨s.start_bcol, s.start_c_idx, s.end_bcol, s.end_c_idx + 1⟩)],
         s.start_fills, s.end_fills⟩
      let r := nowrapLines o width height start_bcolumn
        (current_line + 1) (wrow + 1) rest
      (r.1, (current_line, lv) :: r.2)

/-- `_collect_from_top_left_with_nowrap` (viewport.rs lines 409-613). -/
def collect_from_top_left_with_nowrap (buffer : Buffer) (actual_shape : U16Rect)
    (start_line start_bcolumn : Nat) : ViewportRect × LinesMap :=
  match buffer.get_lines_at start_line with
  | some buflines =>
    let r := nowrapLines buffer.options actual_shape.width actual_shape.height
      start_bcolumn start_line 0 buflines
    (⟨start_line, r.1⟩, LinesMap.std r.2)
  | none => (ViewportRect.default, LinesMap.std [])

/-- Scan state of the per-line char loop of
`_collect_from_top_left_with_wrap_nolinebreak` (viewport.rs lines 668-681),
including the rows already closed for this line. -/
structure WrapNLBState where
  wrow : Nat
  wcol : Nat
  bcol : Nat
  start_bcol : Nat
  end_bcol : Nat
  start_c_idx : Nat
  end_c_idx : Nat
  start_c_idx_init : Bool
  start_fills : Nat
  end_fills : Nat
  rows : List (Nat × LineViewportRow)
  deriving DecidableEq, Repr

/-- The char loop of `_collect_from_top_left_with_wrap_nolinebreak`
(viewport.rs lines 683-869): chars before `start_bcolumn` are skipped; a
char that would overflow the current row closes it and opens a new row
(stopping when the height is exhausted); the consumed char closes the final
row at the line end, or closes the row when it fills it exactly.  The two
`end_fills` subtractions are `usize` subtraction in the source (which can
underflow there when a narrow char ends a height-exhausted scan); `Nat`
subtraction truncates, a difference no theorem below depends on. -/
def wrapNLBScan (o : BufferLocalOptions)
    (width height start_bcolumn lineLen : Nat) :
    WrapNLBState → Nat → List Char → WrapNLBState
  | s, _, [] => s
  | s, i, c :: cs =>
    let c_width := char_width_val o c
    if s.bcol < start_bcolumn then
      wrapNLBScan o width height start_bcolumn lineLen
        { s with bcol := s.bcol + c_width, end_bcol := s.bcol + c_width,
                 end_c_idx := i } (i + 1) cs
    else
      let s1 := if s.start_c_idx_init then s else
        { s with start_c_idx_init := true, start_bcol := s.bcol,
                 start_c_idx := i, start_fills := s.bcol - start_bcolumn }
      let step : Sum WrapNLBState WrapNLBState :=
        if width < s1.wcol + c_width then
          let s2 := { s1 with
            rows := s1.rows ++
              [(s1.wrow, ⟨s1.start_bcol, s1.start_c_idx, s1.end_bcol,
                          s1.end_c_idx + 1⟩)],
            wrow := s1.wrow + 1, wcol := 0,
            start_bcol := s1.end_bcol + 1, start_c_idx := i }
          if height ≤ s2.wrow then Sum.inl { s2 with end_fills := c_width - width }
          else Sum.inr s2
        else Sum.inr s1
      match step with
      | Sum.inl sdone => sdone
      | Sum.inr sk =>
        let s3 := { sk with bcol := sk.bcol + c_width,
                            end_bcol := sk.bcol + c_width, end_c_idx := i,
                            wcol := sk.wcol + c_width }
        if i + 1 = lineLen then
          { s3 with rows := s3.rows ++
              [(s3.wrow, ⟨s3.start_bcol, s3.start_c_idx, s3.end_bcol + 1,
                          s3.end_c_idx + 1⟩)] }
        else if width ≤ s3.wcol then
          let s4 := { s3 with
            rows := s3.rows ++
              [(s3.wrow, ⟨s3.start_bcol, s3.start_c_idx, s3.end_bcol,
                          s3.end_c_idx + 1⟩)],
            wrow := s3.wrow + 1, wcol := 0,
            start_bcol := s3.end_bcol + 1, start_c_idx := i }
          if height ≤ s4.wrow then { s4 with end_fills := c_width - width }
          else wrapNLBScan o width height start_bcolumn lineLen s4 (i + 1) cs
        else wrapNLBScan o width height start_bcolumn lineLen s3 (i + 1) cs

/-- The line loop of `_collect_from_top_left_with_wrap_nolinebreak`
(viewport.rs lines 647-894): a line may span several rows, the row counter
carries across lines, lines past the window height are not visited. -/
def wrapNLBLines (o : BufferLocalOptions) (width height start_bcolumn : Nat) :
    Nat → Nat → List (List Char) → Nat × List (Nat × LineViewport)
  | current_line, _, [] => (current_line, [])
  | current_line, wrow, line :: rest =>
    if height ≤ wrow then (current_line, [])
    else
      let s0 : WrapNLBState := ⟨wrow, 0, 0, 0, 0, 0, 0, false, 0, 0, []⟩
      let s := wrapNLBScan o width height start_bcolumn line.length s0 0 line
      let lv : LineViewport := ⟨s.rows, s.start_fills, s.end_fills⟩
      let r := wrapNLBLines o width height start_bcolumn
        (current_line + 1) (s.wrow + 1) rest
      (r.1, (current_line, lv) :: r.2)

/-- `_collect_from_top_left_with_wrap_nolinebreak` (viewport.rs lines
616-913). -/
def collect_from_top_left_with_wrap_nolinebreak (buffer : Buffer)
    (actual_shape : U16Rect) (start_line start_bcolumn : Nat) :
    ViewportRect × LinesMap :=
  match buffer.get_lines_at start_line with
  | some buflines =>
    let r := wrapNLBLines buffer.options actual_shape.width actual_shape.height
      start_bcolumn start_line 0 buflines
    (⟨start_line, r.1⟩, LinesMap.std r.2)
  | none => (ViewportRect.default, LinesMap.std [])

/-- UTF-8 byte length of an accumulated string, modelling `String::len`. -/
def utf8Len (l : List Char) : Nat := (l.map Char.utf8Size).sum

/-- The loop of `truncate_line` (viewport.rs lines 915-928): chars with index
below `start_column` are skipped; the builder is returned as soon as its byte
length exceeds `max_bytes`, otherwise the char is appended. -/
def truncateLineGo (start_column max_bytes : Nat) (i : Nat)
    (builder : List Char) : List Char → List Char
  | [] => builder
  | c :: cs =>
    if i < start_column then truncateLineGo start_column max_bytes (i + 1) builder cs
    else if max_bytes < utf8Len builder then builder
    else truncateLineGo start_column max_bytes (i + 1) (builder ++ [c]) cs

/-- `truncate_line` (viewport.rs lines 915-928). -/
def truncate_line (line : List Char) (start_column max_bytes : Nat) : List Char :=
  truncateLineGo start_column max_bytes 0 [] line

/-- Modelled from the spec: the word-boundary tokenization of a line (the
external `unicode-segmentation` crate's `split_word_bounds`).  Simplified
UAX 29 segmentation: maximal runs of alphanumeric characters, maximal runs
of spaces, and every other character alone.  No claim below depends on the
exact segment boundaries. -/
def split_word_bounds : List Char → List (List Char)
  | [] => []
  | c :: cs =>
    match split_word_bounds cs with
    | [] => [[c]]
    | [] :: rest => [c] :: [] :: rest
    | (d :: ds) :: rest =>
      if (c.isAlphanum ∧ d.isAlphanum) ∨ (c = ' ' ∧ d = ' ') then
        (c :: d :: ds) :: rest
      else [c] :: (d :: ds) :: rest

/-- Scan state of the word loop of
`_collect_from_top_left_with_wrap_linebreak` (viewport.rs lines 975-980). -/
structure WrapLBState where
  row : Nat
  col : Nat
  chars_length : Nat
  chars_width : Nat
  wd_length : Nat
  sections : List LineViewportRowLB
  deriving DecidableEq, Repr

/-- The force-render char loop for an oversized segment (viewport.rs lines
1063-1097): when the row is full, close it and open the next (stopping at
the window height); a char that would overflow the row stops the segment. -/
def wrapLBForce (o : BufferLocalOptions) (width height : Nat) :
    WrapLBState → List Char → WrapLBState
  | s, [] => s
  | s, c :: cs =>
    let step : Sum WrapLBState WrapLBState :=
      if width ≤ s.col then
        let s1 := { s with
          sections := s.sections ++ [⟨s.row, s.chars_length, s.chars_width⟩],
          row := s.row + 1, col := 0, chars_length := 0, chars_width := 0 }
        if height ≤ s1.row then Sum.inl s1 else Sum.inr s1
      else Sum.inr s
    match step with
    | Sum.inl sdone => sdone
    | Sum.inr sk =>
      let c_width := char_width_val o c
      if width < sk.col + c_width then sk
      else wrapLBForce o width height
        { sk with chars_width := sk.chars_width + c_width,
                  chars_length := sk.chars_length + 1, col := sk.col + c_width,
                  wd_length := sk.wd_length + c_width } cs

/-- The word loop of `_collect_from_top_left_with_wrap_linebreak`
(viewport.rs lines 997-1099): a zero-width final segment is dropped, a
segment that fits extends the current row, and one that does not closes the
row and is force-rendered from the next row on. -/
def wrapLBWords (o : BufferLocalOptions) (width height numWords : Nat) :
    WrapLBState → Nat → List (List Char) → WrapLBState
  | s, _, [] => s
  | s, i, wd :: rest =>
    if height ≤ s.row then s
    else
      let wd_width := (wd.map (char_width_val o)).sum
      if wd_width = 0 ∧ i + 1 = numWords then s
      else if wd_width + s.col ≤ width then
        wrapLBWords o width height numWords
          { s with chars_length := s.chars_length + wd.length,
                   chars_width := s.chars_width + wd_width,
                   col := s.col + wd_width,
                   wd_length := s.wd_length + wd_width } (i + 1) rest
      else
        let s1 := { s with
          sections := s.sections ++ [⟨s.row, s.chars_length, s.chars_width⟩],
          row := s.row + 1, col := 0, chars_length := 0, chars_width := 0 }
        if height ≤ s1.row then s1
        else wrapLBWords o width height numWords
          (wrapLBForce o width height s1 wd) (i + 1) rest

/-- The line loop of `_collect_from_top_left_with_wrap_linebreak`
(viewport.rs lines 963-1114): each line is truncated to at most
`height * width * 4` bytes of content from the start column, tokenized, laid
out by the word loop, and closed with a final section.  The source also
tracks a `max_column` that only feeds the display-column bounds absent from
the declared `ViewportRect`, so it is not modelled. -/
def wrapLBLines (o : BufferLocalOptions) (width height start_dcolumn : Nat) :
    Nat → Nat → List (List Char) → Nat × List (Nat × LineViewportLB)
  | current_line, _, [] => (current_line, [])
  | current_line, row, line :: rest =>
    if height ≤ row then (current_line, [])
    else
      let truncated_line := truncate_line line start_dcolumn (height * width * 4)
      let word_boundaries := split_word_bounds truncated_line
      let s0 : WrapLBState := ⟨row, 0, 0, 0, 0, []⟩
      let s := wrapLBWords o width height word_boundaries.length s0 0 word_boundaries
      let s1 := { s with
        sections := s.sections ++ [LineViewportRowLB.mk s.row s.chars_length s.chars_width] }
      let r := wrapLBLines o width height start_dcolumn
        (current_line + 1) (s1.row + 1) rest
      (r.1, (current_line, ⟨s1.sections⟩) :: r.2)

/-- `_collect_from_top_left_with_wrap_linebreak` (viewport.rs lines
931-1135). -/
def collect_from_top_left_with_wrap_linebreak (buffer : Buffer)
    (actual_shape : U16Rect) (start_line_idx start_dcolumn_idx : Nat) :
    ViewportRect × LinesMap :=
  match buffer.get_lines_at start_line_idx with
  | some buflines =>
    let r := wrapLBLines buffer.options actual_shape.width actual_shape.height
      start_dcolumn_idx start_line_idx 0 buflines
    (⟨start_line_idx, r.1⟩, LinesMap.lb r.2)
  | none => (ViewportRect.default, LinesMap.lb [])

/-- `collect_from_top_left` (viewport.rs lines 364-397): a zero-sized window
yields an empty viewport with default bounds; otherwise the mode selected by
`(wrap, line_break)` runs. -/
def collect_from_top_left (options : ViewportOptions) (buffer : Buffer)
    (actual_shape : U16Rect) (start_line start_bcolumn : Nat) :
    ViewportRect × LinesMap :=
  if actual_shape.height = 0 ∨ actual_shape.width = 0 then
    (ViewportRect.default, LinesMap.std [])
  else
    match options.wrap, options.line_break with
    | false, _ =>
      collect_from_top_left_with_nowrap buffer actual_shape start_line start_bcolumn
    | true, false =>
      collect_from_top_left_with_wrap_nolinebreak buffer actual_shape
        start_line start_bcolumn
    | true, true =>
      collect_from_top_left_with_wrap_linebreak buffer actual_shape
        start_line start_bcolumn

/-- `Viewport` (viewport.rs lines 321-345): options, buffer, shape, the line
range, and the per-line viewports. -/
structure Viewport where
  options : ViewportOptions
  buffer : Buffer
  actual_shape : U16Rect
  start_line : Nat
  end_line : Nat
  lines : LinesMap
  deriving DecidableEq, Repr

/-- `Viewport::new` (viewport.rs lines 1138-1152): collects from the top-left
corner anchored at line 0, display column 0. -/
def Viewport.new (options : ViewportOptions) (buffer : Buffer)
    (actual_shape : U16Rect) : Viewport :=
  let r := collect_from_top_left options buffer actual_shape 0 0
  ⟨options, buffer, actual_shape, r.1.start_line, r.1.end_line, r.2⟩

/-- `Viewport::start_line_idx`. -/
def Viewport.start_line_idx (v : Viewport) : Nat := v.start_line

/-- `Viewport::lines`. -/
def Viewport.linesOf (v : Viewport) : LinesMap := v.lines

/-! ## Invariant predicates and spec-side definitions -/

/-- The prefix widths are monotonically non-decreasing. -/
abbrev MonotoneWidths (l : List Nat) : Prop :=
  ∀ j, j < l.length → ∀ i, i ≤ j → l.getD i 0 ≤ l.getD j 0

/-- One `width2char` entry is consistent: it points inside the cache, at a
char index whose prefix width is the entry's key, and no cached char index
with that prefix width lies to its right. -/
abbrev W2CEntryOk (st : BufWindex) (p : Nat × Nat) : Prop :=
  p.2 < st.char2width.length ∧ st.char2width.getD p.2 0 = p.1 ∧
  ∀ j, j < st.char2width.length → st.char2width.getD j 0 = p.1 → j ≤ p.2

/-- The full index invariant: `char2width` is monotone, every `width2char`
entry is consistent, every recorded width has a `width2char` key, the keys
are distinct, and the reverse map is no longer than the forward one. -/
abbrev WindexOk (st : BufWindex) : Prop :=
  MonotoneWidths st.char2width ∧
  (∀ p ∈ st.width2char, W2CEntryOk st p) ∧
  (∀ i, i < st.char2width.length →
    (alookup (st.char2width.getD i 0) st.width2char).isSome = true) ∧
  (st.width2char.map Prod.fst).Nodup ∧
  st.width2char.length ≤ st.char2width.length

/-- The invariant exactly as the claim lists it: `char2width` monotone
non-decreasing, `char2width.len() >= width2char.len()`, and for every
recorded cumulative width `w` at position `i` the reverse entry
`width2char[w]` exists, is at least `i`, and is the largest cached index
whose cumulative width equals `w`. -/
abbrev WindexClaimInvariant (st : BufWindex) : Prop :=
  MonotoneWidths st.char2width ∧
  st.width2char.length ≤ st.char2width.length ∧
  ∀ i, i < st.char2width.length →
    (alookup (st.char2width.getD i 0) st.width2char).isSome = true ∧
    ∀ cc, alookup (st.char2width.getD i 0) st.width2char = some cc →
      i ≤ cc ∧ ∀ j, j < st.char2width.length →
        st.char2width.getD j 0 = st.char2width.getD i 0 → j ≤ cc

/-- Spec-side predicate for the concatenation property: each subsequent
row's `start_char_idx` equals the previous row's `end_char_idx`, so the
rows' half-open char ranges tile without gap or overlap. -/
def rows_char_ranges_contiguous : List (Nat × LineViewportRow) → Bool
  | [] => true
  | [_] => true
  | r1 :: r2 :: rest =>
    (r2.2.start_char_idx == r1.2.end_char_idx) &&
      rows_char_ranges_contiguous (r2 :: rest)

/-- The chars of a line covered by the half-open char index range
`[a, b)`. -/
def char_range (l : List Char) (a b : Nat) : List Char := (l.drop a).take (b - a)

/-- The buffer line `"Hello, RSVIM!\n"` from the spec's worked examples and
the repository's own viewport tests. -/
def helloLine : List Char :=
  ['H', 'e', 'l', 'l', 'o', ',', ' ', 'R', 'S', 'V', 'I', 'M', '!', '\n']

/-- A buffer holding the single text line `"Hello, RSVIM!\n"`: as in `ropey`,
the trailing line feed opens a final empty line. -/
def helloBuffer : Buffer := ⟨BufferLocalOptions.default, [helloLine, []]⟩

/-- A buffer holding one empty line (the `ropey` representation of an empty
buffer). -/
def emptyBuffer : Buffer := ⟨BufferLocalOptions.default, [[]]⟩

/-! ## General helper lemmas -/

theorem utf8Len_append_char (b : List Char) (c : Char) :
    utf8Len (b ++ [c]) = utf8Len b + c.utf8Size := by
  simp [utf8Len]

theorem char_utf8Size_le_four (c : Char) : c.utf8Size ≤ 4 := by
  simp only [Char.utf8Size]
  split_ifs <;> omega

theorem truncateLineGo_take (s m : Nat) :
    ∀ (l : List Char) (i : Nat) (b : List Char),
      ∃ t, truncateLineGo s m i b l = b ++ t ∧
        t = (l.drop (s - i)).take t.length := by
  intro l
  induction l with
  | nil =>
    intro i b
    exact ⟨[], by simp [truncateLineGo], by simp⟩
  | cons c cs ih =>
    intro i b
    by_cases hi : i < s
    · obtain ⟨t, h1, h2⟩ := ih (i + 1) b
      refine ⟨t, ?_, ?_⟩
      · simpa [truncateLineGo, hi] using h1
      · have hs : s - i = (s - (i + 1)) + 1 := by omega
        rw [hs, List.drop_succ_cons]
        exact h2
    · have hs : s - i = 0 := by omega
      by_cases hb : m < utf8Len b
      · refine ⟨[], ?_, by simp⟩
        simp [truncateLineGo, hi, hb]
      · obtain ⟨t, h1, h2⟩ := ih (i + 1) (b ++ [c])
        have hs1 : s - (i + 1) = 0 := by omega
        rw [hs1, List.drop_zero] at h2
        refine ⟨c :: t, ?_, ?_⟩
        · rw [show b ++ c :: t = (b ++ [c]) ++ t by simp]
          simpa [truncateLineGo, hi, hb] using h1
        · rw [hs, List.drop_zero]
          simp only [List.length_cons, List.take_succ_cons]
          exact congrArg (c :: ·) h2


theorem truncateLineGo_bytes (s m : Nat) :
    ∀ (l : List Char) (i : Nat) (b : List Char),
      utf8Len (truncateLineGo s m i b l) ≤ max (utf8Len b) (m + 4) := by
  intro l
  induction l with
  | nil => intro i b; simp [truncateLineGo]
  | cons c cs ih =>
    intro i b
    by_cases hi : i < s
    · simpa [truncateLineGo, hi] using ih (i + 1) b
    · by_cases hb : m < utf8Len b
      · simp [truncateLineGo, hi, hb]
      · have h1 := ih (i + 1) (b ++ [c])
        have h2 : utf8Len (b ++ [c]) ≤ m + 4 := by
          rw [utf8Len_append_char]
          have := char_utf8Size_le_four c
          omega
        have h3 : max (utf8Len (b ++ [c])) (m + 4) = m + 4 := Nat.max_eq_right h2
        rw [h3] at h1
        have h5 : truncateLineGo s m i b (c :: cs)
            = truncateLineGo s m (i + 1) (b ++ [c]) cs := by
          simp [truncateLineGo, hi, hb]
        rw [h5]
        exact le_trans h1 (Nat.le_max_right _ _)

theorem getD_take_of_lt :
    ∀ (l : List Nat) (n i : Nat), i < n → (l.take n).getD i 0 = l.getD i 0
  | [], _, _, _ => by simp
  | _ :: _, n + 1, 0, _ => by simp
  | c :: cs, n + 1, i + 1, h => by
    simp only [List.take_succ_cons, List.getD_cons_succ]
    exact getD_take_of_lt cs n i (by omega)
  | _ :: _, 0, i, h => by omega

theorem getD_snoc_len (l : List Nat) (a : Nat) :
    (l ++ [a]).getD l.length 0 = a := by
  rw [List.getD_append_right l [a] 0 l.length le_rfl]
  simp

theorem alookup_mem (k v : Nat) :
    ∀ (m : List (Nat × Nat)), alookup k m = some v → (k, v) ∈ m := by
  intro m
  induction m with
  | nil => intro h; simp [alookup] at h
  | cons p rest ih =>
    intro h
    obtain ⟨k', v'⟩ := p
    by_cases hk : k = k'
    · subst hk
      rw [alookup, if_pos rfl] at h
      injection h with h
      subst h
      exact List.mem_cons_self _ _
    · rw [alookup, if_neg hk] at h
      exact List.mem_cons_of_mem _ (ih h)

theorem alookup_none_keys (k : Nat) :
    ∀ (m : List (Nat × Nat)), alookup k m = none → k ∉ m.map Prod.fst := by
  intro m
  induction m with
  | nil => intro _; simp
  | cons p rest ih =>
    intro h
    obtain ⟨k', v'⟩ := p
    by_cases hk : k = k'
    · subst hk
      rw [alookup, if_pos rfl] at h
      exact absurd h (by simp)
    · rw [alookup, if_neg hk] at h
      simp only [List.map_cons, List.mem_cons]
      rintro (h' | h')
      · exact hk h'
      · exact ih h h'

theorem alookup_insert_self (k v : Nat) :
    ∀ (m : List (Nat × Nat)), alookup k (btreeInsert m k v) = some v := by
  intro m
  induction m with
  | nil => simp [btreeInsert, alookup]
  | cons p rest ih =>
    obtain ⟨k', v'⟩ := p
    by_cases hk : k = k'
    · rw [btreeInsert, if_pos hk, alookup, if_pos rfl]
    · rw [btreeInsert, if_neg hk, alookup, if_neg hk]
      exact ih

theorem alookup_insert_ne (k k' v : Nat) (hne : k' ≠ k) :
    ∀ (m : List (Nat × Nat)), alookup k' (btreeInsert m k v) = alookup k' m := by
  intro m
  induction m with
  | nil => simp [btreeInsert, alookup, hne]
  | cons p rest ih =>
    obtain ⟨k0, v0⟩ := p
    by_cases hk : k = k0
    · subst hk
      rw [btreeInsert, if_pos rfl, alookup, if_neg hne, alookup, if_neg hne]
    · rw [btreeInsert, if_neg hk]
      by_cases hk' : k' = k0
      · rw [alookup, if_pos hk', alookup, if_pos hk']
      · rw [alookup, if_neg hk', alookup, if_neg hk']
        exact ih

theorem btreeInsert_of_none (k v : Nat) :
    ∀ (m : List (Nat × Nat)), alookup k m = none →
      btreeInsert m k v = m ++ [(k, v)] := by
  intro m
  induction m with
  | nil => intro _; rfl
  | cons p rest ih =>
    intro h
    obtain ⟨k', v'⟩ := p
    by_cases hk : k = k'
    · subst hk
      rw [alookup, if_pos rfl] at h
      exact absurd h (by simp)
    · rw [alookup, if_neg hk] at h
      rw [btreeInsert, if_neg hk, ih h]
      rfl

theorem btreeInsert_keys_of_some (k v v0 : Nat) :
    ∀ (m : List (Nat × Nat)), alookup k m = some v0 →
      (btreeInsert m k v).map Prod.fst = m.map Prod.fst := by
  intro m
  induction m with
  | nil => intro h; simp [alookup] at h
  | cons p rest ih =>
    intro h
    obtain ⟨k', v'⟩ := p
    by_cases hk : k = k'
    · subst hk
      rw [btreeInsert, if_pos rfl]
      simp
    · rw [alookup, if_neg hk] at h
      rw [btreeInsert, if_neg hk]
      simp only [List.map_cons]
      rw [ih h]

theorem btreeInsert_length_of_some (k v v0 : Nat) :
    ∀ (m : List (Nat × Nat)), alookup k m = some v0 →
      (btreeInsert m k v).length = m.length := by
  intro m
  induction m with
  | nil => intro h; simp [alookup] at h
  | cons p rest ih =>
    intro h
    obtain ⟨k', v'⟩ := p
    by_cases hk : k = k'
    · subst hk
      rw [btreeInsert, if_pos rfl]
      simp
    · rw [alookup, if_neg hk] at h
      rw [btreeInsert, if_neg hk]
      simp only [List.length_cons]
      rw [ih h]

theorem btreeInsert_mem_of_nodup (k v : Nat) (q : Nat × Nat) :
    ∀ (m : List (Nat × Nat)), (m.map Prod.fst).Nodup →
      q ∈ btreeInsert m k v → q = (k, v) ∨ (q ∈ m ∧ q.1 ≠ k) := by
  intro m
  induction m with
  | nil =>
    intro _ hq
    simp [btreeInsert] at hq
    exact Or.inl hq
  | cons p rest ih =>
    intro hnd hq
    obtain ⟨k', v'⟩ := p
    have hnd' : (rest.map Prod.fst).Nodup := by
      simpa using hnd.of_cons
    by_cases hk : k = k'
    · subst hk
      rw [btreeInsert, if_pos rfl] at hq
      rcases List.mem_cons.mp hq with h | h
      · exact Or.inl h
      · refine Or.inr ⟨List.mem_cons_of_mem _ h, ?_⟩
        intro hq1
        have hk' : k ∈ rest.map Prod.fst :=
          List.mem_map.mpr ⟨q, h, hq1⟩
        have hnd2 : (((k, v') : Nat × Nat).1 :: rest.map Prod.fst).Nodup := by
          rw [← List.map_cons]
          exact hnd
        exact (List.nodup_cons.mp hnd2).1 hk'
    · rw [btreeInsert, if_neg hk] at hq
      rcases List.mem_cons.mp hq with h | h
      · subst h
        exact Or.inr ⟨List.mem_cons_self _ _, fun hh => hk hh.symm⟩
      · rcases ih hnd' h with h' | h'
        · exact Or.inl h'
        · exact Or.inr ⟨List.mem_cons_of_mem _ h'.1, h'.2⟩

theorem alookup_append_of_some (k v : Nat) (m m' : List (Nat × Nat))
    (h : alookup k m = some v) : alookup k (m ++ m') = some v := by
  induction m with
  | nil => simp [alookup] at h
  | cons p rest ih =>
    obtain ⟨k', v'⟩ := p
    by_cases hk : k = k'
    · rw [alookup, if_pos hk] at h
      rw [List.cons_append, alookup, if_pos hk]
      exact h
    · rw [alookup, if_neg hk] at h
      rw [List.cons_append, alookup, if_neg hk]
      exact ih h

theorem alookup_append_of_none (k : Nat) (m m' : List (Nat × Nat))
    (h : alookup k m = none) : alookup k (m ++ m') = alookup k m' := by
  induction m with
  | nil => simp
  | cons p rest ih =>
    obtain ⟨k', v'⟩ := p
    by_cases hk : k = k'
    · rw [alookup, if_pos hk] at h
      exact absurd h (by simp)
    · rw [alookup, if_neg hk] at h
      rw [List.cons_append, alookup, if_neg hk]
      exact ih h

theorem alookup_isSome_insert (k k' v : Nat) (m : List (Nat × Nat))
    (h : (alookup k m).isSome = true) :
    (alookup k (btreeInsert m k' v)).isSome = true := by
  by_cases hk : k = k'
  · subst hk
    rw [alookup_insert_self]
    rfl
  · rw [alookup_insert_ne k' k v hk]
    exact h

theorem windexPush_char2width (o : BufferLocalOptions) (st : BufWindex) (c : Char) :
    (windexPush o st c).char2width
      = st.char2width ++
          [st.char2width.getD (st.char2width.length - 1) 0 + char_width_val o c] :=
  rfl

theorem windexPush_width2char (o : BufferLocalOptions) (st : BufWindex) (c : Char) :
    (windexPush o st c).width2char
      = w2cUpdate st.width2char
          (st.char2width.getD (st.char2width.length - 1) 0 + char_width_val o c)
          st.char2width.length := by
  have hl : (st.char2width ++
      [st.char2width.getD (st.char2width.length - 1) 0 + char_width_val o c]).length - 1
      = st.char2width.length := by simp
  simp only [windexPush]
  rw [hl]

theorem windexPush_ok_aux (st' : BufWindex) (L : List Nat)
    (m : List (Nat × Nat)) (w' : Nat)
    (hc2w : st'.char2width = L ++ [w'])
    (hw2c : st'.width2char = w2cUpdate m w' L.length)
    (hw'ge : ∀ i, i < L.length → L.getD i 0 ≤ w')
    (hmono : MonotoneWidths L)
    (hent : ∀ p ∈ m, p.2 < L.length ∧ L.getD p.2 0 = p.1 ∧
      ∀ j, j < L.length → L.getD j 0 = p.1 → j ≤ p.2)
    (hkeys : ∀ i, i < L.length → (alookup (L.getD i 0) m).isSome = true)
    (hnd : (m.map Prod.fst).Nodup)
    (hlen : m.length ≤ L.length) :
    WindexOk st' := by
  have hgetlt : ∀ i, i < L.length → (L ++ [w']).getD i 0 = L.getD i 0 :=
    fun i hi => List.getD_append L [w'] 0 i hi
  have hgetn : (L ++ [w']).getD L.length 0 = w' := getD_snoc_len L w'
  have hlen1 : (L ++ [w']).length = L.length + 1 := by simp
  have hmono' : MonotoneWidths (L ++ [w']) := by
    intro j hj i hij
    rw [hlen1] at hj
    by_cases hjn : j < L.length
    · rw [hgetlt j hjn, hgetlt i (by omega)]
      exact hmono j hjn i hij
    · have hje : j = L.length := by omega
      subst hje
      rw [hgetn]
      by_cases hin : i < L.length
      · rw [hgetlt i hin]
        exact hw'ge i hin
      · have : i = L.length := by omega
        subst this
        rw [hgetn]
  cases hcase : alookup w' m with
  | none =>
    have hupd : st'.width2char = m ++ [(w', L.length)] := by
      rw [hw2c]
      unfold w2cUpdate
      rw [hcase]
      show btreeInsert m w' L.length = m ++ [(w', L.length)]
      exact btreeInsert_of_none w' L.length m hcase
    have hwnotin : w' ∉ m.map Prod.fst := alookup_none_keys w' m hcase
    refine ⟨?_, ?_, ?_, ?_, ?_⟩
    · rw [hc2w]
      exact hmono'
    · intro p hp
      rw [hupd] at hp
      simp only [W2CEntryOk]
      rw [hc2w]
      rcases List.mem_append.mp hp with hpm | hpw
      · obtain ⟨h1, h2, h3⟩ := hent p hpm
        have hpne : p.1 ≠ w' := by
          intro hw
          exact hwnotin (List.mem_map.mpr ⟨p, hpm, hw⟩)
        refine ⟨by rw [hlen1]; omega, by rw [hgetlt p.2 h1]; exact h2, ?_⟩
        intro j hj hvj
        rw [hlen1] at hj
        by_cases hjn : j < L.length
        · rw [hgetlt j hjn] at hvj
          exact h3 j hjn hvj
        · have : j = L.length := by omega
          subst this
          rw [hgetn] at hvj
          exact absurd hvj.symm hpne
      · have hpw' : p = (w', L.length) := by simpa using hpw
        subst hpw'
        refine ⟨by rw [hlen1]; omega, hgetn, ?_⟩
        intro j hj _
        rw [hlen1] at hj
        show j ≤ L.length
        omega
    · intro i hi
      rw [hc2w, hlen1] at hi
      rw [hc2w, hupd]
      by_cases hin : i < L.length
      · rw [hgetlt i hin]
        obtain ⟨v, hv⟩ := Option.isSome_iff_exists.mp (hkeys i hin)
        rw [alookup_append_of_some _ _ _ _ hv]
        rfl
      · have : i = L.length := by omega
        subst this
        rw [hgetn, alookup_append_of_none _ _ _ hcase]
        simp [alookup]
    · rw [hupd, List.map_append, List.nodup_append]
      refine ⟨hnd, by simp, ?_⟩
      intro a ha hb
      simp only [List.map_cons, List.map_nil, List.mem_singleton] at hb
      subst hb
      exact hwnotin ha
    · rw [hc2w, hupd, hlen1]
      simp only [List.length_append, List.length_cons, List.length_nil]
      omega
  | some c0 =>
    have hc0mem : (w', c0) ∈ m := alookup_mem w' c0 m hcase
    obtain ⟨hc0lt, _, _⟩ := hent _ hc0mem
    have hc0lt' : c0 < L.length := hc0lt
    have hupd : st'.width2char = btreeInsert m w' L.length := by
      rw [hw2c]
      unfold w2cUpdate
      rw [hcase]
      show (if c0 < L.length then btreeInsert m w' L.length else m)
        = btreeInsert m w' L.length
      rw [if_pos hc0lt']
    refine ⟨?_, ?_, ?_, ?_, ?_⟩
    · rw [hc2w]
      exact hmono'
    · intro p hp
      rw [hupd] at hp
      simp only [W2CEntryOk]
      rw [hc2w]
      rcases btreeInsert_mem_of_nodup w' L.length p m hnd hp with hpw | ⟨hpm, hpne⟩
      · subst hpw
        refine ⟨by rw [hlen1]; omega, hgetn, ?_⟩
        intro j hj _
        rw [hlen1] at hj
        show j ≤ L.length
        omega
      · obtain ⟨h1, h2, h3⟩ := hent p hpm
        refine ⟨by rw [hlen1]; omega, by rw [hgetlt p.2 h1]; exact h2, ?_⟩
        intro j hj hvj
        rw [hlen1] at hj
        by_cases hjn : j < L.length
        · rw [hgetlt j hjn] at hvj
          exact h3 j hjn hvj
        · have : j = L.length := by omega
          subst this
          rw [hgetn] at hvj
          exact absurd hvj.symm hpne
    · intro i hi
      rw [hc2w, hlen1] at hi
      rw [hc2w, hupd]
      by_cases hin : i < L.length
      · rw [hgetlt i hin]
        exact alookup_isSome_insert _ _ _ _ (hkeys i hin)
      · have : i = L.length := by omega
        subst this
        rw [hgetn, alookup_insert_self]
        rfl
    · rw [hupd, btreeInsert_keys_of_some w' L.length c0 m hcase]
      exact hnd
    · rw [hc2w, hupd, btreeInsert_length_of_some w' L.length c0 m hcase, hlen1]
      omega

theorem windexPush_ok (o : BufferLocalOptions) (st : BufWindex) (c : Char)
    (h : WindexOk st) : WindexOk (windexPush o st c) := by
  obtain ⟨hmono, hent, hkeys, hnd, hlen⟩ := h
  refine windexPush_ok_aux (windexPush o st c) st.char2width st.width2char
    (st.char2width.getD (st.char2width.length - 1) 0 + char_width_val o c)
    rfl (windexPush_width2char o st c) ?_ hmono hent hkeys hnd hlen
  intro i hi
  have h1 : st.char2width.getD i 0 ≤ st.char2width.getD (st.char2width.length - 1) 0 :=
    hmono (st.char2width.length - 1) (by omega) i (by omega)
  omega

theorem windexOk_new : WindexOk BufWindex.new :=
  ⟨fun j hj => by simp [BufWindex.new] at hj,
   fun p hp => by simp [BufWindex.new] at hp,
   fun i hi => by simp [BufWindex.new] at hi,
   by simp [BufWindex.new],
   by simp [BufWindex.new]⟩

theorem foldl_push_ok (o : BufferLocalOptions) (l : List Char) :
    ∀ st : BufWindex, WindexOk st → WindexOk (List.foldl (windexPush o) st l) := by
  induction l with
  | nil => intro st h; exact h
  | cons c cs ih =>
    intro st h
    rw [List.foldl_cons]
    exact ih _ (windexPush_ok o st c h)

theorem prefixWidthsAux_length (o : BufferLocalOptions) :
    ∀ (l : List Char) (acc : Nat), (prefixWidthsAux o acc l).length = l.length := by
  intro l
  induction l with
  | nil => intro acc; rfl
  | cons c cs ih =>
    intro acc
    simp only [prefixWidthsAux, List.length_cons]
    rw [ih]

theorem foldl_push_c2w (o : BufferLocalOptions) :
    ∀ (l : List Char) (st : BufWindex),
      (List.foldl (windexPush o) st l).char2width
        = st.char2width ++ prefixWidthsAux o
            (st.char2width.getD (st.char2width.length - 1) 0) l := by
  intro l
  induction l with
  | nil => intro st; simp [prefixWidthsAux]
  | cons c cs ih =>
    intro st
    rw [List.foldl_cons, ih (windexPush o st c), windexPush_char2width]
    have hl : (st.char2width ++
        [st.char2width.getD (st.char2width.length - 1) 0 + char_width_val o c]).length - 1
        = st.char2width.length := by simp
    rw [hl, getD_snoc_len]
    simp only [prefixWidthsAux]
    rw [List.append_assoc]
    rfl

theorem foldl_push_length (o : BufferLocalOptions) (l : List Char) (st : BufWindex) :
    (List.foldl (windexPush o) st l).char2width.length
      = st.char2width.length + l.length := by
  rw [foldl_push_c2w]
  simp [prefixWidthsAux_length]

theorem width_until_of_lt (o : BufferLocalOptions) (line : List Char)
    (st : BufWindex) (idx : Nat) (h : idx < st.char2width.length) :
    width_until o line st idx = (st, some (st.char2width.getD idx 0)) := by
  simp only [width_until]
  rw [if_neg (by omega : ¬ st.char2width.length ≤ idx), if_pos h]

theorem width_until_extend (o : BufferLocalOptions) (line : List Char)
    (st : BufWindex) (idx : Nat)
    (h1 : st.char2width.length ≤ idx) (h2 : idx < line.length) :
    width_until o line st idx
      = (List.foldl (windexPush o) st
          ((line.drop st.char2width.length).take (idx + 1 - st.char2width.length)),
         some ((List.foldl (windexPush o) st
          ((line.drop st.char2width.length).take
            (idx + 1 - st.char2width.length))).char2width.getD idx 0)) := by
  have hlen : (List.foldl (windexPush o) st
      ((line.drop st.char2width.length).take
        (idx + 1 - st.char2width.length))).char2width.length = idx + 1 := by
    rw [foldl_push_length]
    simp only [List.length_take, List.length_drop]
    omega
  simp only [width_until]
  rw [if_pos h1, if_pos h2, if_pos (by rw [hlen]; omega)]

theorem width_until_of_oob (o : BufferLocalOptions) (line : List Char)
    (st : BufWindex) (idx : Nat)
    (h1 : line.length ≤ idx) (h2 : st.char2width.length ≤ line.length) :
    width_until o line st idx = (st, none) := by
  simp only [width_until]
  rw [if_pos (by omega), if_neg (by omega), if_neg (by omega)]

theorem width_until_ok (o : BufferLocalOptions) (line : List Char)
    (st : BufWindex) (idx : Nat) (h : WindexOk st) :
    WindexOk (width_until o line st idx).1 := by
  simp only [width_until]
  split_ifs with h1 h2
  · exact foldl_push_ok o _ st h
  · exact h
  · exact h

theorem width_between_eq (o : BufferLocalOptions) (line : List Char)
    (st : BufWindex) (a b : Nat) :
    width_between o line st a b
      = ((width_until o line (width_until o line st a).1 b).1,
         match (width_until o line st a).2,
               (width_until o line (width_until o line st a).1 b).2 with
         | some start_width, some last_width =>
           if start_width ≤ last_width then some (last_width - start_width) else none
         | _, _ => none) := rfl

theorem width_between_ok (o : BufferLocalOptions) (line : List Char)
    (st : BufWindex) (a b : Nat) (h : WindexOk st) :
    WindexOk (width_between o line st a b).1 := by
  rw [width_between_eq]
  exact width_until_ok o line _ b (width_until_ok o line st a h)

theorem prefixWidthsAux_getD (o : BufferLocalOptions) :
    ∀ (l : List Char) (acc i : Nat), i < l.length →
      (prefixWidthsAux o acc l).getD i 0
        = acc + ((l.take (i + 1)).map (char_width_val o)).sum := by
  intro l
  induction l with
  | nil => intro acc i h; simp at h
  | cons c cs ih =>
    intro acc i h
    cases i with
    | zero => simp [prefixWidthsAux]
    | succ i =>
      simp only [prefixWidthsAux, List.getD_cons_succ]
      rw [ih (acc + char_width_val o c) i (by simpa using h)]
      simp only [List.take_succ_cons, List.map_cons, List.sum_cons]
      omega

theorem mapsum_take_le (o : BufferLocalOptions) (l : List Char) (a b : Nat)
    (h : a ≤ b) :
    ((l.take a).map (char_width_val o)).sum
      ≤ ((l.take b).map (char_width_val o)).sum := by
  have hsplit : l.take b = l.take a ++ (l.drop a).take (b - a) := by
    conv_lhs => rw [show b = a + (b - a) by omega]
    exact List.take_add l a (b - a)
  rw [hsplit, List.map_append, List.sum_append]
  exact Nat.le_add_right _ _

theorem prefixWidths_mono (o : BufferLocalOptions) (line : List Char)
    (i j : Nat) (hij : i ≤ j) (hj : j < line.length) :
    (prefixWidths o line).getD i 0 ≤ (prefixWidths o line).getD j 0 := by
  unfold prefixWidths
  rw [prefixWidthsAux_getD o line 0 i (by omega),
      prefixWidthsAux_getD o line 0 j hj]
  have := mapsum_take_le o line (i + 1) (j + 1) (by omega)
  omega

theorem prefixWidthsAux_take (o : BufferLocalOptions) :
    ∀ (l : List Char) (acc n : Nat),
      prefixWidthsAux o acc (l.take n) = (prefixWidthsAux o acc l).take n := by
  intro l
  induction l with
  | nil => intro acc n; simp [prefixWidthsAux]
  | cons c cs ih =>
    intro acc n
    cases n with
    | zero => simp [prefixWidthsAux]
    | succ n =>
      simp only [List.take_succ_cons, prefixWidthsAux]
      rw [ih]

theorem buildWindex_c2w (o : BufferLocalOptions) (line : List Char) (n : Nat) :
    (buildWindex o line n).char2width = prefixWidthsAux o 0 (line.take n) := by
  unfold buildWindex
  rw [foldl_push_c2w]
  simp [BufWindex.new]

theorem buildWindex_length (o : BufferLocalOptions) (line : List Char) (n : Nat)
    (h : n ≤ line.length) : (buildWindex o line n).char2width.length = n := by
  rw [buildWindex_c2w, prefixWidthsAux_length]
  simp only [List.length_take]
  omega

theorem buildWindex_getD (o : BufferLocalOptions) (line : List Char) (n i : Nat)
    (hi : i < n) :
    (buildWindex o line n).char2width.getD i 0 = (prefixWidths o line).getD i 0 := by
  rw [buildWindex_c2w, prefixWidthsAux_take]
  exact getD_take_of_lt _ n i hi

theorem buildWindex_foldl (o : BufferLocalOptions) (line : List Char) (n m : Nat)
    (h : n ≤ m) :
    buildWindex o line m
      = List.foldl (windexPush o) (buildWindex o line n)
          ((line.drop n).take (m - n)) := by
  unfold buildWindex
  rw [← List.foldl_append]
  congr 1
  conv_lhs => rw [show m = n + (m - n) by omega]
  exact List.take_add line n (m - n)

theorem width_until_build_some (o : BufferLocalOptions) (line : List Char)
    (n idx : Nat) (hn : n ≤ line.length) (hidx : idx < line.length) :
    width_until o line (buildWindex o line n) idx
      = (buildWindex o line (max n (idx + 1)),
         some ((prefixWidths o line).getD idx 0)) := by
  by_cases hc : idx < n
  · rw [width_until_of_lt o line _ idx (by rw [buildWindex_length o line n hn]; omega)]
    rw [Nat.max_eq_left (by omega), buildWindex_getD o line n idx hc]
  · have hn' : n ≤ idx := by omega
    rw [width_until_extend o line _ idx
      (by rw [buildWindex_length o line n hn]; omega) hidx]
    have hfold : List.foldl (windexPush o) (buildWindex o line n)
        ((line.drop (buildWindex o line n).char2width.length).take
          (idx + 1 - (buildWindex o line n).char2width.length))
        = buildWindex o line (idx + 1) := by
      rw [buildWindex_length o line n hn]
      exact (buildWindex_foldl o line n (idx + 1) (by omega)).symm
    rw [hfold, Nat.max_eq_right (by omega),
      buildWindex_getD o line (idx + 1) idx (by omega)]

theorem width_until_build_none (o : BufferLocalOptions) (line : List Char)
    (n idx : Nat) (hn : n ≤ line.length) (hidx : line.length ≤ idx) :
    width_until o line (buildWindex o line n) idx = (buildWindex o line n, none) :=
  width_until_of_oob o line _ idx hidx
    (by rw [buildWindex_length o line n hn]; exact hn)

theorem windexOk_claim (st : BufWindex) (h : WindexOk st) :
    WindexClaimInvariant st := by
  obtain ⟨hmono, hent, hkeys, _, hlen⟩ := h
  refine ⟨hmono, hlen, ?_⟩
  intro i hi
  refine ⟨hkeys i hi, ?_⟩
  intro cc hcc
  obtain ⟨_, _, h3⟩ := hent _ (alookup_mem _ _ _ hcc)
  exact ⟨h3 i hi rfl, fun j hj hvj => h3 j hj hvj⟩

theorem width_until_values (o : BufferLocalOptions) (line : List Char)
    (st : BufWindex) (i j : Nat) (hij : i ≤ j) (hj : j < line.length) :
    (width_until o line st i).2
        = some ((width_until o line st j).1.char2width.getD i 0) ∧
    (width_until o line st j).2
        = some ((width_until o line st j).1.char2width.getD j 0) ∧
    j < (width_until o line st j).1.char2width.length := by
  by_cases hjn : j < st.char2width.length
  · rw [width_until_of_lt o line st j hjn,
        width_until_of_lt o line st i (by omega)]
    exact ⟨rfl, rfl, hjn⟩
  · have hnj : st.char2width.length ≤ j := by omega
    have hjlen : (List.foldl (windexPush o) st
        ((line.drop st.char2width.length).take
          (j + 1 - st.char2width.length))).char2width.length = j + 1 := by
      rw [foldl_push_length]
      simp only [List.length_take, List.length_drop]
      omega
    rw [width_until_extend o line st j hnj hj]
    by_cases hin : i < st.char2width.length
    · rw [width_until_of_lt o line st i hin]
      refine ⟨?_, rfl, by rw [hjlen]; omega⟩
      rw [foldl_push_c2w, List.getD_append _ _ _ _ hin]
    · have hni : st.char2width.length ≤ i := by omega
      rw [width_until_extend o line st i hni (by omega)]
      refine ⟨?_, rfl, by rw [hjlen]; omega⟩
      have hsplit : (line.drop st.char2width.length).take (j + 1 - st.char2width.length)
          = (line.drop st.char2width.length).take (i + 1 - st.char2width.length)
            ++ ((line.drop st.char2width.length).drop (i + 1 - st.char2width.length)).take
                ((j + 1 - st.char2width.length) - (i + 1 - st.char2width.length)) := by
        conv_lhs => rw [show j + 1 - st.char2width.length
          = (i + 1 - st.char2width.length)
            + ((j + 1 - st.char2width.length) - (i + 1 - st.char2width.length)) by omega]
        exact List.take_add _ _ _
      have hilen : (List.foldl (windexPush o) st
          ((line.drop st.char2width.length).take
            (i + 1 - st.char2width.length))).char2width.length = i + 1 := by
        rw [foldl_push_length]
        simp only [List.length_take, List.length_drop]
        omega
      rw [hsplit, List.foldl_append, foldl_push_c2w o _
        (List.foldl (windexPush o) st
          ((line.drop st.char2width.length).take (i + 1 - st.char2width.length)))]
      rw [List.getD_append _ _ _ _ (by rw [hilen]; omega)]

theorem width_until_values_mono (o : BufferLocalOptions) (line : List Char)
    (st : BufWindex) (h : WindexOk st) :
    ∀ j, j < line.length → ∀ i, i ≤ j →
      (width_until o line st i).2.isSome = true ∧
      (width_until o line st j).2.isSome = true ∧
      (width_until o line st i).2.getD 0 ≤ (width_until o line st j).2.getD 0 := by
  intro j hj i hij
  obtain ⟨hvi, hvj, hjlen⟩ := width_until_values o line st i j hij hj
  have hE : WindexOk (width_until o line st j).1 := width_until_ok o line st j h
  refine ⟨by rw [hvi]; rfl, by rw [hvj]; rfl, ?_⟩
  rw [hvi, hvj]
  simp only [Option.getD_some]
  exact hE.1 j hjlen i hij

theorem width_between_snd (o : BufferLocalOptions) (line : List Char)
    (st : BufWindex) (a b : Nat) :
    (width_between o line st a b).2
      = match (width_until o line st a).2,
              (width_until o line (width_until o line st a).1 b).2 with
        | some start_width, some last_width =>
          if start_width ≤ last_width then some (last_width - start_width) else none
        | _, _ => none := rfl

theorem nowrap_collect_at_count (buffer : Buffer) (shape : U16Rect) (c : Nat) :
    collect_from_top_left_with_nowrap buffer shape buffer.lines.length c
      = (⟨buffer.lines.length, buffer.lines.length⟩, LinesMap.std []) := by
  unfold collect_from_top_left_with_nowrap Buffer.get_lines_at
  rw [if_pos le_rfl, List.drop_length buffer.lines]
  rfl

theorem nowrap_collect_beyond (buffer : Buffer) (shape : U16Rect) (s c : Nat)
    (h : buffer.lines.length < s) :
    collect_from_top_left_with_nowrap buffer shape s c
      = (ViewportRect.default, LinesMap.std []) := by
  unfold collect_from_top_left_with_nowrap Buffer.get_lines_at
  rw [if_neg (by omega)]

theorem wrap_nlb_collect_at_count (buffer : Buffer) (shape : U16Rect) (c : Nat) :
    collect_from_top_left_with_wrap_nolinebreak buffer shape buffer.lines.length c
      = (⟨buffer.lines.length, buffer.lines.length⟩, LinesMap.std []) := by
  unfold collect_from_top_left_with_wrap_nolinebreak Buffer.get_lines_at
  rw [if_pos le_rfl, List.drop_length buffer.lines]
  rfl

theorem wrap_nlb_collect_beyond (buffer : Buffer) (shape : U16Rect) (s c : Nat)
    (h : buffer.lines.length < s) :
    collect_from_top_left_with_wrap_nolinebreak buffer shape s c
      = (ViewportRect.default, LinesMap.std []) := by
  unfold collect_from_top_left_with_wrap_nolinebreak Buffer.get_lines_at
  rw [if_neg (by omega)]

theorem wrap_lb_collect_at_count (buffer : Buffer) (shape : U16Rect) (c : Nat) :
    collect_from_top_left_with_wrap_linebreak buffer shape buffer.lines.length c
      = (⟨buffer.lines.length, buffer.lines.length⟩, LinesMap.lb []) := by
  unfold collect_from_top_left_with_wrap_linebreak Buffer.get_lines_at
  rw [if_pos le_rfl, List.drop_length buffer.lines]
  rfl

theorem wrap_lb_collect_beyond (buffer : Buffer) (shape : U16Rect) (s c : Nat)
    (h : buffer.lines.length < s) :
    collect_from_top_left_with_wrap_linebreak buffer shape s c
      = (ViewportRect.default, LinesMap.lb []) := by
  unfold collect_from_top_left_with_wrap_linebreak Buffer.get_lines_at
  rw [if_neg (by omega)]

/-! ## Claim theorems -/

/-! ## Claim theorems -/

/-- C1 (code bug): in wrap mode without line-break, laying out the buffer
line `"Hello, RSVIM!\n"` in a 10×10 window anchored at (0, 0) yields a
second row with `start_char_idx = 9` while the first row ends at
`end_char_idx = 10`: the rows' char ranges `[0, 10)` and `[9, 14)` overlap
at char 9, so concatenating the rows in order does not reconstruct the
visible line — contradicting the claim (and the repository's own test that
expects rows `"Hello, RSV"` then `"IM!"`). -/
theorem c1_wrap_row_ranges_not_contiguous :
    collect_from_top_left ⟨true, false⟩ helloBuffer ⟨10, 10⟩ 0 0
      = (ViewportRect.mk 0 2, LinesMap.std
          [(0, LineViewport.mk
              [(0, LineViewportRow.mk 0 0 10 10),
               (1, LineViewportRow.mk 11 9 14 14)] 0 0),
           (1, LineViewport.mk [] 0 0)]) ∧
    rows_char_ranges_contiguous
      [(0, LineViewportRow.mk 0 0 10 10),
       (1, LineViewportRow.mk 11 9 14 14)] = false :=
  ⟨by decide, by decide⟩

/-- C2 (code bug): the same layout distributes the line over exactly two
rows, but the second row's reported char range is `[9, 14)`, whose chars are
`"VIM!\n"` — not the `"IM!"` (chars `[10, 14)`) the claim and the
repository's own test expect.  The first row is `[0, 10)` = `"Hello, RSV"`
and the trailing line feed has width 0 (the row's `end_bcolumn` stays 14
while only 13 columns precede the line feed). -/
theorem c2_wrap_second_row_chars :
    collect_from_top_left ⟨true, false⟩ helloBuffer ⟨10, 10⟩ 0 0
      = (ViewportRect.mk 0 2, LinesMap.std
          [(0, LineViewport.mk
              [(0, LineViewportRow.mk 0 0 10 10),
               (1, LineViewportRow.mk 11 9 14 14)] 0 0),
           (1, LineViewport.mk [] 0 0)]) ∧
    char_range helloLine 0 10 = ['H', 'e', 'l', 'l', 'o', ',', ' ', 'R', 'S', 'V'] ∧
    char_range helloLine 9 14 = ['V', 'I', 'M', '!', '\n'] ∧
    char_range helloLine 9 14 ≠ ['I', 'M', '!'] :=
  ⟨by decide, by decide, by decide, by decide⟩

/-- C3 counterexample: `char_width` on the non-ASCII control character
U+0080 has no value (the `width_cjk` unwrap panics), and on the zero-width
combining mark U+0300 it returns 0 — both contradict "all remaining
characters get 1 cell, except East-Asian wide/fullwidth which get 2". -/
theorem c3_char_width_counterexample :
    char_width BufferLocalOptions.default (Char.ofNat 0x80) = none ∧
    char_width BufferLocalOptions.default (Char.ofNat 0x300) = some 0 :=
  ⟨by decide, by decide⟩

/-- C3 amended: `char_width` returns the configured tab-stop width for a tab
(flat, column-independent); 0 for line feed and carriage return; the printed
length (2) of the caret-notation glyph for every other ASCII control
character; and for all remaining characters the East-Asian width table
value — undefined (a panic) on U+0080..U+009F, and 0, 1 or 2 cells
elsewhere (2 exactly on the wide/fullwidth blocks, 0 on zero-width marks). -/
theorem c3_char_width_cases (o : BufferLocalOptions) (c : Char) :
    (c = '\t' → char_width o c = some o.tab_stop) ∧
    ((c = '\n' ∨ c = '\r') → char_width o c = some 0) ∧
    (is_ascii_control c = true → c ≠ '\t' → ¬(c = '\n' ∨ c = '\r') →
      char_width o c = some (ascii_control_glyph c).length ∧
      (ascii_control_glyph c).length = 2) ∧
    (is_ascii_control c = false →
      char_width o c = width_cjk c ∧
      (0x80 ≤ c.toNat ∧ c.toNat ≤ 0x9F → char_width o c = none) ∧
      (¬(0x80 ≤ c.toNat ∧ c.toNat ≤ 0x9F) →
        char_width o c = some 0 ∨ char_width o c = some 1 ∨
          char_width o c = some 2)) := by
  have hglyph : (ascii_control_glyph c).length = 2 := by
    unfold ascii_control_glyph
    split <;> rfl
  refine ⟨?_, ?_, ?_, ?_⟩
  · intro h; subst h; rfl
  · intro h
    rcases h with h | h <;> (subst h; rfl)
  · intro hctl hne hnl
    refine ⟨?_, hglyph⟩
    unfold char_width
    rw [if_pos hctl, if_neg hne, if_neg hnl]
  · intro hctl
    have hc : ¬(c.toNat ≤ 0x1F) ∧ c.toNat ≠ 0x7F := by
      have := hctl
      unfold is_ascii_control at this
      constructor
      · intro hle
        simp [hle] at this
      · intro heq
        simp [heq] at this
    have hcw : char_width o c = width_cjk c := by
      unfold char_width
      rw [if_neg (by simp [hctl])]
    refine ⟨hcw, ?_, ?_⟩
    · intro hrange
      rw [hcw]
      unfold width_cjk
      rw [if_pos (Or.inr ⟨by omega, hrange.2⟩)]
    · intro hrange
      rw [hcw]
      unfold width_cjk
      rw [if_neg (by omega)]
      split
      · exact Or.inl rfl
      · split
        · exact Or.inr (Or.inr rfl)
        · exact Or.inr (Or.inl rfl)

/-- Witness for C3's amended theorem at the control character U+0001
(caret glyph `^A`, width 2) and spot checks of the other branches. -/
theorem c3_char_width_cases_witness :
    char_width BufferLocalOptions.default (Char.ofNat 0x01)
        = some (ascii_control_glyph (Char.ofNat 0x01)).length ∧
    (ascii_control_glyph (Char.ofNat 0x01)).length = 2 :=
  (c3_char_width_cases BufferLocalOptions.default (Char.ofNat 0x01)).2.2.1
    (by decide) (by decide) (by decide)

/-- C4 counterexample: on the non-ASCII control character U+009F both
`char_width` and `char_symbol` panic (the `width_cjk` unwrap), so the pair
of functions is not total. -/
theorem c4_totality_counterexample :
    char_width BufferLocalOptions.default (Char.ofNat 0x9F) = none ∧
    char_symbol BufferLocalOptions.default (Char.ofNat 0x9F) = none :=
  ⟨by decide, by decide⟩

/-- C4 amended: outside the non-ASCII control characters U+0080..U+009F
(where the width lookup panics), `char_width` and `char_symbol` are pure and
total: both return a value, and the symbol's reported width is exactly
`char_width`'s result. -/
theorem c4_total_outside_c1_controls (o : BufferLocalOptions) (c : Char)
    (h : c.toNat < 0x80 ∨ 0x9F < c.toNat) :
    (char_width o c).isSome = true ∧ (char_symbol o c).isSome = true ∧
    Option.map Prod.snd (char_symbol o c) = char_width o c := by
  have hw : (char_width o c).isSome = true := by
    by_cases hctl : is_ascii_control c = true
    · unfold char_width
      rw [if_pos hctl]
      split_ifs <;> rfl
    · have hctl' : is_ascii_control c = false := by
        revert hctl
        cases is_ascii_control c <;> simp
      have hc : ¬(c.toNat ≤ 0x1F) ∧ c.toNat ≠ 0x7F := by
        have := hctl'
        unfold is_ascii_control at this
        constructor
        · intro hle
          simp [hle] at this
        · intro heq
          simp [heq] at this
      unfold char_width
      rw [if_neg (by simp [hctl'])]
      unfold width_cjk
      rw [if_neg (by omega)]
      split
      · rfl
      · split <;> rfl
  obtain ⟨w, hw'⟩ := Option.isSome_iff_exists.mp hw
  refine ⟨hw, ?_, ?_⟩
  · unfold char_symbol
    rw [hw']
    split_ifs <;> rfl
  · unfold char_symbol
    rw [hw']
    split_ifs <;> simp [hw']

/-- Witness for C4's amended theorem at the ASCII letter `A`. -/
theorem c4_total_outside_c1_controls_witness :
    ('A'.toNat < 0x80 ∨ 0x9F < 'A'.toNat) ∧
    ((char_width BufferLocalOptions.default 'A').isSome = true ∧
     (char_symbol BufferLocalOptions.default 'A').isSome = true ∧
     Option.map Prod.snd (char_symbol BufferLocalOptions.default 'A')
       = char_width BufferLocalOptions.default 'A') :=
  ⟨Or.inl (by decide),
   c4_total_outside_c1_controls BufferLocalOptions.default 'A' (Or.inl (by decide))⟩

/-- C5 counterexample: with `height = width = 1` the claimed bound is
`1 × 1 × 4 = 4` characters, but `truncate_line` keeps 5 characters of an
8-character ASCII line (it stops only after the byte length exceeds the
bound). -/
theorem c5_truncation_counterexample :
    ¬ (truncate_line (List.replicate 8 'a') 0 (1 * 1 * 4)).length ≤ 1 * 1 * 4 := by
  decide

/-- C5 amended: before tokenizing, the wrap-linebreak collector truncates
the line with `truncate_line line start (height × width × 4)` (viewport.rs
lines 986-990): the result is a prefix of the line counted from the start
column — content beyond it is not considered at all — and its UTF-8 byte
length is at most `height × width × 4` plus one final character of at most
4 bytes (the bound is checked before each push, so it can be exceeded by
one character; it bounds bytes, not characters). -/
theorem c5_truncate_line_prefix_and_byte_bound (line : List Char)
    (start_column height width : Nat) :
    truncate_line line start_column (height * width * 4)
      = (line.drop start_column).take
          (truncate_line line start_column (height * width * 4)).length ∧
    utf8Len (truncate_line line start_column (height * width * 4))
      ≤ height * width * 4 + 4 := by
  constructor
  · obtain ⟨t, h1, h2⟩ :=
      truncateLineGo_take start_column (height * width * 4) line 0 []
    unfold truncate_line
    rw [h1]
    simpa using h2
  · have := truncateLineGo_bytes start_column (height * width * 4) line 0 []
    unfold truncate_line
    simpa [utf8Len] using this

/-- C9: laying out any buffer with any options and start anchor into a
window of height 0 or width 0 returns the empty viewport with default
bounds and no line viewports — a valid result, not an error. -/
theorem c9_zero_sized_window_empty (options : ViewportOptions)
    (buffer : Buffer) (actual_shape : U16Rect) (start_line start_bcolumn : Nat)
    (h : actual_shape.height = 0 ∨ actual_shape.width = 0) :
    collect_from_top_left options buffer actual_shape start_line start_bcolumn
      = (ViewportRect.default, LinesMap.std []) := by
  unfold collect_from_top_left
  rw [if_pos h]

/-- Witness for C9 at a concrete zero-height window over a non-empty
buffer. -/
theorem c9_zero_sized_window_empty_witness :
    ((U16Rect.mk 7 0).height = 0 ∨ (U16Rect.mk 7 0).width = 0) ∧
    collect_from_top_left ⟨false, false⟩ helloBuffer (U16Rect.mk 7 0) 3 2
      = (ViewportRect.default, LinesMap.std []) :=
  ⟨Or.inl rfl,
   c9_zero_sized_window_empty ⟨false, false⟩ helloBuffer (U16Rect.mk 7 0) 3 2
     (Or.inl rfl)⟩

/-- C10: `Viewport::new` always computes the layout anchored at line 0 and
display column 0 (its `lines` are exactly `collect_from_top_left`'s result
at anchor (0, 0)), and every freshly constructed viewport reports
`start_line_idx() = 0` — in every mode, for every buffer and shape. -/
theorem c10_viewport_new_starts_at_zero (options : ViewportOptions)
    (buffer : Buffer) (actual_shape : U16Rect) :
    (Viewport.new options buffer actual_shape).start_line_idx = 0 ∧
    (Viewport.new options buffer actual_shape).linesOf
      = (collect_from_top_left options buffer actual_shape 0 0).2 := by
  refine ⟨?_, rfl⟩
  show (collect_from_top_left options buffer actual_shape 0 0).1.start_line = 0
  obtain ⟨wrap, lb⟩ := options
  unfold collect_from_top_left
  by_cases h : actual_shape.height = 0 ∨ actual_shape.width = 0
  · rw [if_pos h]
    rfl
  · rw [if_neg h]
    cases wrap <;> cases lb <;>
      simp [collect_from_top_left_with_nowrap,
        collect_from_top_left_with_wrap_nolinebreak,
        collect_from_top_left_with_wrap_linebreak, Buffer.get_lines_at]

/-- C6 counterexample: with a one-line buffer (the empty buffer has exactly
one, empty, line) and `start_line` exactly at the line count, the layout
does return no line entries, but its bounds are `(1, 1)`, not the default
`(0, 0)` the claim asserts for "at or beyond the buffer's line count". -/
theorem c6_at_count_not_default_bounds :
    (collect_from_top_left ⟨false, false⟩ emptyBuffer ⟨1, 1⟩ 1 0).1
      ≠ ViewportRect.default ∧
    emptyBuffer.lines.length ≤ 1 :=
  ⟨by decide, by decide⟩

/-- C6 amended: for an index used consistently with one line's text,
`width_until` returns `None` exactly when `char_idx` is at or beyond the
line's character count (and `Some` cumulative width otherwise); layout with
`start_line` at or beyond the buffer's line count returns a viewport with no
line entries; its bounds are the default ones when `start_line` is strictly
beyond the line count, while at exactly the line count they record
`start_line = end_line = start_line` (not the default).  In both operations
an out-of-range index is absence, never a fatal error. -/
theorem c6_out_of_range_is_absence (o : BufferLocalOptions) (line : List Char)
    (st : BufWindex) (char_idx : Nat)
    (hst : st.char2width.length ≤ line.length)
    (options : ViewportOptions) (buffer : Buffer) (actual_shape : U16Rect)
    (start_line start_bcolumn : Nat)
    (hs : buffer.lines.length ≤ start_line) :
    ((width_until o line st char_idx).2 = none ↔ line.length ≤ char_idx) ∧
    (collect_from_top_left options buffer actual_shape
        start_line start_bcolumn).2.isEmpty = true ∧
    (buffer.lines.length < start_line →
      (collect_from_top_left options buffer actual_shape
          start_line start_bcolumn).1 = ViewportRect.default) ∧
    (buffer.lines.length = start_line →
      ¬(actual_shape.height = 0 ∨ actual_shape.width = 0) →
      (collect_from_top_left options buffer actual_shape
          start_line start_bcolumn).1 = ⟨start_line, start_line⟩) := by
  obtain ⟨wrap, lb⟩ := options
  refine ⟨?_, ?_, ?_, ?_⟩
  · constructor
    · intro hnone
      by_contra hlt
      push_neg at hlt
      by_cases hc : char_idx < st.char2width.length
      · rw [width_until_of_lt o line st char_idx hc] at hnone
        simp at hnone
      · rw [width_until_extend o line st char_idx (by omega) hlt] at hnone
        simp at hnone
    · intro hge
      rw [width_until_of_oob o line st char_idx hge hst]
  · unfold collect_from_top_left
    by_cases hz : actual_shape.height = 0 ∨ actual_shape.width = 0
    · rw [if_pos hz]
      rfl
    · rw [if_neg hz]
      rcases Nat.eq_or_lt_of_le hs with heq | hlt
      · subst heq
        cases wrap <;> cases lb
        · show (collect_from_top_left_with_nowrap buffer actual_shape
            buffer.lines.length start_bcolumn).2.isEmpty = true
          rw [nowrap_collect_at_count]
          rfl
        · show (collect_from_top_left_with_nowrap buffer actual_shape
            buffer.lines.length start_bcolumn).2.isEmpty = true
          rw [nowrap_collect_at_count]
          rfl
        · show (collect_from_top_left_with_wrap_nolinebreak buffer actual_shape
            buffer.lines.length start_bcolumn).2.isEmpty = true
          rw [wrap_nlb_collect_at_count]
          rfl
        · show (collect_from_top_left_with_wrap_linebreak buffer actual_shape
            buffer.lines.length start_bcolumn).2.isEmpty = true
          rw [wrap_lb_collect_at_count]
          rfl
      · cases wrap <;> cases lb
        · show (collect_from_top_left_with_nowrap buffer actual_shape
            start_line start_bcolumn).2.isEmpty = true
          rw [nowrap_collect_beyond buffer actual_shape _ _ hlt]
          rfl
        · show (collect_from_top_left_with_nowrap buffer actual_shape
            start_line start_bcolumn).2.isEmpty = true
          rw [nowrap_collect_beyond buffer actual_shape _ _ hlt]
          rfl
        · show (collect_from_top_left_with_wrap_nolinebreak buffer actual_shape
            start_line start_bcolumn).2.isEmpty = true
          rw [wrap_nlb_collect_beyond buffer actual_shape _ _ hlt]
          rfl
        · show (collect_from_top_left_with_wrap_linebreak buffer actual_shape
            start_line start_bcolumn).2.isEmpty = true
          rw [wrap_lb_collect_beyond buffer actual_shape _ _ hlt]
          rfl
  · intro hlt
    unfold collect_from_top_left
    by_cases hz : actual_shape.height = 0 ∨ actual_shape.width = 0
    · rw [if_pos hz]
    · rw [if_neg hz]
      cases wrap <;> cases lb
      · show (collect_from_top_left_with_nowrap buffer actual_shape
          start_line start_bcolumn).1 = ViewportRect.default
        rw [nowrap_collect_beyond buffer actual_shape _ _ hlt]
      · show (collect_from_top_left_with_nowrap buffer actual_shape
          start_line start_bcolumn).1 = ViewportRect.default
        rw [nowrap_collect_beyond buffer actual_shape _ _ hlt]
      · show (collect_from_top_left_with_wrap_nolinebreak buffer actual_shape
          start_line start_bcolumn).1 = ViewportRect.default
        rw [wrap_nlb_collect_beyond buffer actual_shape _ _ hlt]
      · show (collect_from_top_left_with_wrap_linebreak buffer actual_shape
          start_line start_bcolumn).1 = ViewportRect.default
        rw [wrap_lb_collect_beyond buffer actual_shape _ _ hlt]
  · intro heq hz
    subst heq
    unfold collect_from_top_left
    rw [if_neg hz]
    cases wrap <;> cases lb
    · show (collect_from_top_left_with_nowrap buffer actual_shape
        buffer.lines.length start_bcolumn).1 = ⟨buffer.lines.length, buffer.lines.length⟩
      rw [nowrap_collect_at_count]
    · show (collect_from_top_left_with_nowrap buffer actual_shape
        buffer.lines.length start_bcolumn).1 = ⟨buffer.lines.length, buffer.lines.length⟩
      rw [nowrap_collect_at_count]
    · show (collect_from_top_left_with_wrap_nolinebreak buffer actual_shape
        buffer.lines.length start_bcolumn).1 = ⟨buffer.lines.length, buffer.lines.length⟩
      rw [wrap_nlb_collect_at_count]
    · show (collect_from_top_left_with_wrap_linebreak buffer actual_shape
        buffer.lines.length start_bcolumn).1 = ⟨buffer.lines.length, buffer.lines.length⟩
      rw [wrap_lb_collect_at_count]

/-- Witness for C6's amended theorem: empty index over the line `"x"` with
the out-of-range index 5, and the empty buffer laid out from line 1. -/
theorem c6_out_of_range_is_absence_witness :
    (BufWindex.new.char2width.length ≤ (['x'] : List Char).length ∧
     emptyBuffer.lines.length ≤ 1) ∧
    ((width_until BufferLocalOptions.default ['x'] BufWindex.new 5).2 = none
      ↔ (['x'] : List Char).length ≤ 5) :=
  ⟨⟨by decide, by decide⟩,
   (c6_out_of_range_is_absence BufferLocalOptions.default ['x'] BufWindex.new 5
     (by decide) ⟨false, false⟩ emptyBuffer ⟨3, 3⟩ 1 0 (by decide)).1⟩

/-- C7: on an index state reachable for a line (the cache holds the first
`n` chars), `width_between([a, b])` with `a ≤ b` both in bounds returns
exactly `width_until(b) - width_until(a)` — each `width_until` returning the
line's cumulative prefix width — and the subtrahend never exceeds the
minuend (the result is a well-defined, non-negative width); when either
endpoint is out of the line's char range the result is `None`. -/
theorem c7_width_between_difference (o : BufferLocalOptions) (line : List Char)
    (n a b : Nat) (hn : n ≤ line.length) (hab : a ≤ b) :
    (b < line.length →
      (width_between o line (buildWindex o line n) a b).2
        = some ((prefixWidths o line).getD b 0 - (prefixWidths o line).getD a 0) ∧
      (width_until o line (buildWindex o line n) a).2
        = some ((prefixWidths o line).getD a 0) ∧
      (width_until o line (buildWindex o line n) b).2
        = some ((prefixWidths o line).getD b 0) ∧
      (prefixWidths o line).getD a 0 ≤ (prefixWidths o line).getD b 0) ∧
    (line.length ≤ b ∨ line.length ≤ a →
      (width_between o line (buildWindex o line n) a b).2 = none) := by
  constructor
  · intro hb
    have ha : a < line.length := by omega
    have h1 := width_until_build_some o line n a hn ha
    have hm1 : max n (a + 1) ≤ line.length := Nat.max_le.mpr ⟨hn, by omega⟩
    have h2 := width_until_build_some o line (max n (a + 1)) b hm1 hb
    have hmono := prefixWidths_mono o line a b hab hb
    refine ⟨?_, by rw [h1], by rw [width_until_build_some o line n b hn hb], hmono⟩
    rw [width_between_snd]
    simp only [h1, h2]
    rw [if_pos hmono]
  · intro hout
    rcases Nat.lt_or_ge a line.length with ha | ha
    · have hb : line.length ≤ b := by
        rcases hout with h | h
        · exact h
        · omega
      have h1 := width_until_build_some o line n a hn ha
      have hm1 : max n (a + 1) ≤ line.length := Nat.max_le.mpr ⟨hn, by omega⟩
      have h2 := width_until_build_none o line (max n (a + 1)) b hm1 hb
      rw [width_between_snd]
      simp only [h1, h2]
    · have h1 := width_until_build_none o line n a hn ha
      rw [width_between_snd]
      simp only [h1]

/-- Witness for C7 on the line `"abc"` with a fresh index, `a = 0`,
`b = 1`. -/
theorem c7_width_between_difference_witness :
    ((0 : Nat) ≤ (['a', 'b', 'c'] : List Char).length ∧ (0 : Nat) ≤ 1) ∧
    (width_between BufferLocalOptions.default ['a', 'b', 'c']
        (buildWindex BufferLocalOptions.default ['a', 'b', 'c'] 0) 0 1).2
      = some ((prefixWidths BufferLocalOptions.default ['a', 'b', 'c']).getD 1 0
          - (prefixWidths BufferLocalOptions.default ['a', 'b', 'c']).getD 0 0) :=
  ⟨⟨by decide, by decide⟩,
   ((c7_width_between_difference BufferLocalOptions.default ['a', 'b', 'c'] 0 0 1
      (by decide) (by decide)).1 (by decide)).1⟩

/-- C8: every `width_until` and `width_between` call on an index satisfying
the invariant preserves it: `char2width` stays monotonically non-decreasing,
`char2width.len() >= width2char.len()`, and every recorded cumulative width
`w` at position `i` has a reverse entry `width2char[w] >= i` that is the
largest cached index whose cumulative width equals `w`; consequently
`width_until(j) >= width_until(i)` for all in-bounds `i <= j`. -/
theorem c8_windex_invariant_preserved (o : BufferLocalOptions)
    (line : List Char) (st : BufWindex) (char_idx a b : Nat)
    (h : WindexOk st) :
    WindexOk (width_until o line st char_idx).1 ∧
    WindexClaimInvariant (width_until o line st char_idx).1 ∧
    WindexOk (width_between o line st a b).1 ∧
    WindexClaimInvariant (width_between o line st a b).1 ∧
    (∀ j, j < line.length → ∀ i, i ≤ j →
      (width_until o line st i).2.isSome = true ∧
      (width_until o line st j).2.isSome = true ∧
      (width_until o line st i).2.getD 0 ≤ (width_until o line st j).2.getD 0) := by
  have h1 := width_until_ok o line st char_idx h
  have h2 := width_between_ok o line st a b h
  exact ⟨h1, windexOk_claim _ h1, h2, windexOk_claim _ h2,
    width_until_values_mono o line st h⟩

/-- Witness for C8 on the line `"ab"` starting from the fresh index. -/
theorem c8_windex_invariant_preserved_witness :
    WindexOk BufWindex.new ∧
    WindexClaimInvariant
      (width_until BufferLocalOptions.default ['a', 'b'] BufWindex.new 1).1 ∧
    WindexClaimInvariant
      (width_between BufferLocalOptions.default ['a', 'b'] BufWindex.new 0 1).1 :=
  ⟨by decide,
   (c8_windex_invariant_preserved BufferLocalOptions.default ['a', 'b']
      BufWindex.new 1 0 1 (by decide)).2.1,
   (c8_windex_invariant_preserved BufferLocalOptions.default ['a', 'b']
      BufWindex.new 1 0 1 (by decide)).2.2.2.1⟩

end Rsvim
